import Mathlib

/-!
Verification of the small-path renderer (`src/gpu/ops/GrSmallPathRenderer.cpp`)
and the transfer-function validation utility (`src/core/SkColorSpacePriv.h`).

Modelling conventions:
* `SkScalar` (a 32-bit float in the source) is modelled as `ℚ`, exact
  rational arithmetic.  All constants of the source are exactly
  representable, and every comparison the claims depend on is robust to
  this choice (checked per claim).
* floor/ceil/trunc on scalars use `Int.floor`/`Int.ceil`;
  `SkScalarFloorToScalar(SkScalarLog2 x)` and
  `SkScalarCeilToScalar(SkScalarLog2 x)` are the integer base-2
  logarithms `Int.log 2 x` / `Int.clog 2 x`.
* external collaborators that are not part of the two source files
  (the atlas `GrDrawOpAtlas`, the hash `SkTDynamicHash`, the intrusive
  list `SkTInternalLList`, the mesh splitter `GrMesh`, the pipeline
  helper `GrSimpleMeshDrawOpHelperWithStencil`) are modelled from the
  contracts stated in the specification; each such definition says so
  in its doc comment.
-/

/-! ## Part 1: `src/core/SkColorSpacePriv.h` -/

/-- Transfer-function coefficient record (`SkColorSpaceTransferFn`),
fields `fA` … `fG`, scalars modelled as exact rationals. -/
structure SkColorSpaceTransferFn where
  fA : ℚ
  fB : ℚ
  fC : ℚ
  fD : ℚ
  fE : ℚ
  fF : ℚ
  fG : ℚ
deriving DecidableEq, Repr

/-- Named gamma tags from `SkImageInfo`/`SkColorSpace` relevant to
`named_to_parametric` (`default` stands for every other tag, which the
source routes to the `default:` case). -/
inductive SkGammaNamed where
  | kLinear_SkGammaNamed
  | kSRGB_SkGammaNamed
  | k2Dot2Curve_SkGammaNamed
  | kNonStandard_SkGammaNamed
deriving DecidableEq, Repr

open SkGammaNamed

/-- The smallest positive normalized `float`, `FLT_MIN` = 2^(-126),
as an exact rational. -/
def fltMin : ℚ := 1 / 2 ^ (126 : ℕ)

/-- `SkScalarIsNaN` : rationals model concrete (non-NaN) float values,
so the predicate is constantly false on this domain. -/
def skScalarIsNaN (_ : ℚ) : Bool := false

/-- Source `add_epsilon`: `v + FLT_MIN`.  (In exact arithmetic
`1 + FLT_MIN > 1`; in evaluated `float` arithmetic the sum rounds back
to `1.0f`.  Every comparison below holds under both readings, see
`is_valid_transfer_fn`.) -/
def add_epsilon (v : ℚ) : ℚ := v + fltMin

/-- Source `is_zero_to_one`. -/
def is_zero_to_one (v : ℚ) : Bool := decide ((0 ≤ v) ∧ (v ≤ add_epsilon 1))

/-- Source `is_valid_transfer_fn`, translated check for check. -/
def is_valid_transfer_fn (coeffs : SkColorSpaceTransferFn) : Bool :=
  if skScalarIsNaN coeffs.fA || skScalarIsNaN coeffs.fB ||
     skScalarIsNaN coeffs.fC || skScalarIsNaN coeffs.fD ||
     skScalarIsNaN coeffs.fE || skScalarIsNaN coeffs.fF ||
     skScalarIsNaN coeffs.fG then
    false
  else if ¬ is_zero_to_one coeffs.fD then
    false
  else if coeffs.fD = 0 ∧ (coeffs.fA = 0 ∨ coeffs.fG = 0) then
    -- `Y = (aX + b)^g + c  for always` : constant function rejected
    false
  else if 1 ≤ coeffs.fD ∧ coeffs.fE = 0 then
    -- `Y = eX + f          for always` : constant function rejected
    false
  else if (coeffs.fA = 0 ∨ coeffs.fG = 0) ∧ coeffs.fC = 0 then
    false
  else if coeffs.fC < 0 then
    false
  else if coeffs.fA < 0 ∨ coeffs.fG < 0 then
    false
  else
    true

/-- Source `value_to_parametric`. -/
def value_to_parametric (exponent : ℚ) : SkColorSpaceTransferFn :=
  ⟨1, 0, 0, 0, 0, 0, exponent⟩

/-- Source `named_to_parametric`; the out-parameter plus `bool` return
is rendered as `Option`. -/
def named_to_parametric : SkGammaNamed → Option SkColorSpaceTransferFn
  | kSRGB_SkGammaNamed =>
      some ⟨1 / (1055/1000), (55/1000) / (1055/1000), 1 / (1292/100),
            4045/100000, 0, 0, 24/10⟩
  | k2Dot2Curve_SkGammaNamed =>
      some (value_to_parametric (22/10))
  | kLinear_SkGammaNamed =>
      -- fD = add_epsilon 1 : `use the linear segment of the transfer
      -- function even when the x-value is 1.0f`
      some ⟨0, 0, 1, add_epsilon 1, 0, 0, 0⟩
  | kNonStandard_SkGammaNamed => none

/-- C10: the source comments require the linear named gamma to pass
validation (`the client can use an entirely linear transfer function`),
and `named_to_parametric` accepts the three named gammas; but while
the sRGB and 2.2 coefficient sets do satisfy `is_valid_transfer_fn`,
the `kLinear` set (fA=0, fB=0, fC=1, fD=1+FLT_MIN, fE=0, fF=0, fG=0) is
rejected: `fD ≥ 1` together with `fE = 0` triggers the
`E is zero, constant transfer function` rejection (the validator tests
`fE` although the linear segment of this representation is `c·X + f`,
as the sRGB coefficients show).  This holds in exact arithmetic
(`1 + FLT_MIN > 1`) and under `float` evaluation
(`1.0f + FLT_MIN == 1.0f ≥ 1.0f`) alike. -/
theorem c10_named_to_parametric_linear_rejected :
    (named_to_parametric kSRGB_SkGammaNamed).map is_valid_transfer_fn
      = some true ∧
    (named_to_parametric k2Dot2Curve_SkGammaNamed).map is_valid_transfer_fn
      = some true ∧
    (named_to_parametric kLinear_SkGammaNamed).map is_valid_transfer_fn
      = some false := by
  refine ⟨?_, ?_, ?_⟩ <;>
    norm_num [named_to_parametric, is_valid_transfer_fn, is_zero_to_one,
      add_epsilon, fltMin, value_to_parametric, skScalarIsNaN]

/-! ## Part 2: `src/gpu/ops/GrSmallPathRenderer.cpp` -/

/-- Mip-level constant `kIdealMinMIP = 12`. -/
def kIdealMinMIP : ℚ := 12

/-- Mip-level constant `kMaxMIP = 162`. -/
def kMaxMIP : ℚ := 162

/-- Eligibility constant `kMaxDim = 73`. -/
def kMaxDim : ℚ := 73

/-- Eligibility constant `kMinSize = SK_ScalarHalf`. -/
def kMinSize : ℚ := 1/2

/-- Eligibility constant `kMaxSize = 2*kMaxMIP`. -/
def kMaxSize : ℚ := 2 * kMaxMIP

/-- Antialiasing type of a draw request (`GrAAType`). -/
inductive GrAAType where
  | kNone
  | kCoverage
  | kMSAA
deriving DecidableEq, Repr

/-- Inputs read by `GrSmallPathRenderer::onCanDrawPath`.  The shape,
caps and matrix queries of the `CanDrawPathArgs` are represented by
their results: `minMaxScales` is `SkMatrix::getMinMaxScales`, which can
fail (`none`), and `boundsWidth`/`boundsHeight` are the dimensions of
`GrShape::styledBounds()`. -/
structure CanDrawPathArgs where
  shaderDerivativeSupport : Bool
  hasUnstyledKey : Bool
  isSimpleFill : Bool
  fAAType : GrAAType
  inverseFilled : Bool
  hasPerspective : Bool
  minMaxScales : Option (ℚ × ℚ)
  boundsWidth : ℚ
  boundsHeight : ℚ

/-- Source `GrSmallPathRenderer::onCanDrawPath`; the early
`return false` chain is rendered as a Boolean conjunction. -/
def onCanDrawPath (args : CanDrawPathArgs) : Bool :=
  args.shaderDerivativeSupport &&
  args.hasUnstyledKey &&
  args.isSimpleFill &&
  decide (args.fAAType = GrAAType.kCoverage) &&
  !args.inverseFilled &&
  !args.hasPerspective &&
  match args.minMaxScales with
  | none => false
  | some scaleFactors =>
      let minDim := min args.boundsWidth args.boundsHeight
      let maxDim := max args.boundsWidth args.boundsHeight
      let minSize := minDim * |scaleFactors.1|
      let maxSize := maxDim * |scaleFactors.2|
      decide (maxDim ≤ kMaxDim ∧ kMinSize ≤ minSize ∧ maxSize ≤ kMaxSize)

/-- C7: `onCanDrawPath` is a pure predicate, and it accepts only when
the shape has a stable unstyled key, is a simple non-inverse fill, the
AA type is coverage, the matrix has no perspective, the larger
untransformed bounds dimension is ≤ kMaxDim = 73, the smaller dimension
scaled by the minimum scale factor is ≥ kMinSize = 1/2, and the larger
dimension scaled by the maximum scale factor is ≤ kMaxSize = 324. -/
theorem c7_onCanDrawPath_necessary_conditions (args : CanDrawPathArgs)
    (h : onCanDrawPath args = true) :
    args.hasUnstyledKey = true ∧ args.isSimpleFill = true ∧
    args.fAAType = GrAAType.kCoverage ∧ args.inverseFilled = false ∧
    args.hasPerspective = false ∧
    kMaxDim = 73 ∧ kMinSize = 1/2 ∧ kMaxSize = 324 ∧
    ∃ sf : ℚ × ℚ, args.minMaxScales = some sf ∧
      max args.boundsWidth args.boundsHeight ≤ kMaxDim ∧
      kMinSize ≤ min args.boundsWidth args.boundsHeight * |sf.1| ∧
      max args.boundsWidth args.boundsHeight * |sf.2| ≤ kMaxSize := by
  unfold onCanDrawPath at h
  simp only [Bool.and_eq_true, Bool.not_eq_true', decide_eq_true_eq] at h
  obtain ⟨⟨⟨⟨⟨⟨hcaps, hkey⟩, hfill⟩, haa⟩, hinv⟩, hpersp⟩, hrest⟩ := h
  refine ⟨hkey, hfill, haa, hinv, hpersp, rfl, rfl, by norm_num [kMaxSize, kMaxMIP], ?_⟩
  cases hms : args.minMaxScales with
  | none => rw [hms] at hrest; exact absurd hrest (by simp)
  | some sf =>
      rw [hms] at hrest
      simp only [decide_eq_true_eq] at hrest
      exact ⟨sf, rfl, hrest.1, hrest.2.1, hrest.2.2⟩

/-- Witness for C7 at a concrete accepted draw request. -/
theorem c7_witness :
    onCanDrawPath ⟨true, true, true, GrAAType.kCoverage, false, false,
        some (1, 1), 10, 5⟩ = true ∧
    (⟨true, true, true, GrAAType.kCoverage, false, false,
        some (1, 1), 10, 5⟩ : CanDrawPathArgs).fAAType = GrAAType.kCoverage := by
  have hacc : onCanDrawPath ⟨true, true, true, GrAAType.kCoverage, false, false,
      some (1, 1), 10, 5⟩ = true := by
    norm_num [onCanDrawPath, kMaxDim, kMinSize, kMaxSize, kMaxMIP]
  exact ⟨hacc, (c7_onCanDrawPath_necessary_conditions _ hacc).2.2.1⟩

/-- Field-mode mip scale selection from `SmallPathOp::onPrepareDraws`:
`SkScalarFloorToScalar(SkScalarLog2(SkScalarInvert(maxScale)))` is the
integer `Int.log 2 maxScale⁻¹` and
`SkScalarCeilToScalar(SkScalarLog2 maxScale)` is `Int.clog 2 maxScale`,
so `SkScalarPow(2, -log)` / `SkScalarPow(2, log)` are the corresponding
integer powers of two. -/
def mipScale (maxScale : ℚ) : ℚ :=
  if maxScale ≤ 1/2 then
    (2 : ℚ) ^ (-(Int.log 2 maxScale⁻¹))
  else if 1 < maxScale then
    (2 : ℚ) ^ (Int.clog 2 maxScale)
  else 1

/-- The mip scale is always strictly positive. -/
theorem mipScale_pos (maxScale : ℚ) : 0 < mipScale maxScale := by
  unfold mipScale
  split
  · exact zpow_pos (by norm_num) _
  · split
    · exact zpow_pos (by norm_num) _
    · norm_num

/-- Counterexample to C6 as stated: at `maxScale = 1/3` the code picks
`mipScale = 1/2`, whose reciprocal `2` is not `≤ maxScale`; so for
`maxScale ≤ 0.5` the computed mip scale is not `a power of two whose
reciprocal is ≤ maxScale`. -/
theorem c6_counterexample :
    mipScale (1/3) = 1/2 ∧ ¬ (mipScale (1/3))⁻¹ ≤ (1/3 : ℚ) := by
  have hlog : Int.log 2 (((1:ℚ)/3)⁻¹) = 1 := by
    rw [show ((1:ℚ)/3)⁻¹ = ((3:ℕ) : ℚ) by norm_num, Int.log_natCast]
    have h31 : Nat.log 2 3 = 1 :=
      Nat.log_eq_of_pow_le_of_lt_pow (by norm_num) (by norm_num)
    rw [h31]
    norm_num
  have hms : mipScale (1/3) = 1/2 := by
    unfold mipScale
    rw [if_pos (by norm_num), hlog]
    norm_num
  exact ⟨hms, by rw [hms]; norm_num⟩

/-- C6 (amended): for every positive `maxScale` the computed `mipScale`
is a power of two, it is at least `maxScale` (so the assertion
`maxScale <= mipScale` at the end of the selection is valid), it is the
smallest power of two ≥ `maxScale` — in particular, for
`maxScale ≤ 0.5` it is the power of two whose reciprocal is the largest
power of two that is ≤ the reciprocal of `maxScale` — and it is exactly
`1` for `0.5 < maxScale ≤ 1`. -/
theorem c6_mipScale_smallest_pow_two (s : ℚ) (hs : 0 < s) :
    (∃ k : ℤ, mipScale s = 2 ^ k) ∧
    s ≤ mipScale s ∧
    (∀ j : ℤ, s ≤ 2 ^ j → mipScale s ≤ 2 ^ j) ∧
    (1/2 < s → s ≤ 1 → mipScale s = 1) := by
  have hb : 1 < 2 := by norm_num
  have hcast : ((2 : ℕ) : ℚ) = (2 : ℚ) := by norm_num
  unfold mipScale
  by_cases h1 : s ≤ 1/2
  · rw [if_pos h1]
    have hinv : 0 < s⁻¹ := inv_pos.mpr hs
    refine ⟨⟨-(Int.log 2 s⁻¹), rfl⟩, ?_, ?_, ?_⟩
    · have h2 := Int.zpow_log_le_self hb hinv
      rw [hcast] at h2
      calc s = (s⁻¹)⁻¹ := (inv_inv s).symm
        _ ≤ ((2:ℚ) ^ (Int.log 2 s⁻¹))⁻¹ :=
            (inv_anti₀ (zpow_pos (by norm_num) _) h2)
        _ = (2:ℚ) ^ (-(Int.log 2 s⁻¹)) := (zpow_neg 2 _).symm
    · intro j hj
      have hj2 : ((2:ℚ) ^ j)⁻¹ ≤ s⁻¹ :=
        inv_anti₀ hs hj
      rw [← zpow_neg] at hj2
      have hle : -j ≤ Int.log 2 s⁻¹ := by
        have := (Int.zpow_le_iff_le_log hb hinv (x := -j)).mp (by rw [hcast]; exact hj2)
        exact this
      exact zpow_le_zpow_right₀ (by norm_num) (by omega)
    · intro hlt _
      exact absurd h1 (not_le.mpr hlt)
  · rw [if_neg h1]
    by_cases h2 : 1 < s
    · rw [if_pos h2]
      refine ⟨⟨Int.clog 2 s, rfl⟩, ?_, ?_, ?_⟩
      · have h3 := Int.self_le_zpow_clog hb s
        rw [hcast] at h3
        exact h3
      · intro j hj
        have hle : Int.clog 2 s ≤ j := by
          have := (Int.le_zpow_iff_clog_le hb hs (x := j)).mp (by rw [hcast]; exact hj)
          exact this
        exact zpow_le_zpow_right₀ (by norm_num) hle
      · intro _ hle
        exact absurd h2 (not_lt.mpr hle)
    · rw [if_neg h2]
      refine ⟨⟨0, by norm_num⟩, not_lt.mp h2, ?_, fun _ _ => rfl⟩
      intro j hj
      rcases le_or_lt 0 j with hj0 | hj0
      · calc (1:ℚ) = 2 ^ (0:ℤ) := by norm_num
          _ ≤ 2 ^ j := zpow_le_zpow_right₀ (by norm_num) hj0
      · exfalso
        have : (2:ℚ) ^ j ≤ 2 ^ (-1 : ℤ) :=
          zpow_le_zpow_right₀ (by norm_num) (by omega)
        have hhalf : (2:ℚ) ^ (-1 : ℤ) = 1/2 := by norm_num
        have := hj.trans (this.trans_eq hhalf)
        exact absurd this h1

/-- Witness for the amended C6 at `maxScale = 3`. -/
theorem c6_witness : (0:ℚ) < 3 ∧ (3:ℚ) ≤ mipScale 3 :=
  ⟨by norm_num, (c6_mipScale_smallest_pow_two 3 (by norm_num)).2.1⟩

/-- Ceiling of a rational halved drops below the ceiling (used as the
termination measure of the doubling loop). -/
theorem nat_ceil_half_lt (q : ℚ) (hq : 2 < q) : ⌈q / 2⌉₊ < ⌈q⌉₊ := by
  rw [Nat.lt_ceil]
  have h1 : (⌈q / 2⌉₊ : ℚ) < q / 2 + 1 := Nat.ceil_lt_add_one (by positivity)
  linarith

/-- Ceiling of a rational quartered drops below the ceiling (used as
the termination measure of the quartering loop). -/
theorem nat_ceil_quarter_lt (q : ℚ) (hq : 4 < q) : ⌈q / 4⌉₊ < ⌈q⌉₊ := by
  rw [Nat.lt_ceil]
  have h1 : (⌈q / 4⌉₊ : ℚ) < q / 4 + 1 := Nat.ceil_lt_add_one (by positivity)
  linarith

/-- The doubling loop of `SmallPathOp::onPrepareDraws`:
`do { newMipSize *= 2; } while (newMipSize < kIdealMinMIP);`.
Positivity of the value is carried so that the loop terminates. -/
def doubleLoop (newMipSize : ℚ) (h : 0 < newMipSize) : ℚ :=
  if h2 : newMipSize * 2 < kIdealMinMIP then
    doubleLoop (newMipSize * 2) (by positivity)
  else newMipSize * 2
termination_by ⌈kIdealMinMIP / newMipSize⌉₊
decreasing_by
  have he : kIdealMinMIP / (newMipSize * 2) = kIdealMinMIP / newMipSize / 2 := by
    ring
  rw [he]
  apply nat_ceil_half_lt
  rw [lt_div_iff₀ h]
  linarith

/-- The quartering loop of `SmallPathOp::onPrepareDraws`:
`while (newMipSize > 4 * mipSize) { newMipSize *= 0.25f; }`. -/
def quarterLoop (mipSize : ℚ) (hm : 0 < mipSize) (newMipSize : ℚ) : ℚ :=
  if h4 : 4 * mipSize < newMipSize then
    quarterLoop mipSize hm (newMipSize * (1/4))
  else newMipSize
termination_by ⌈newMipSize / mipSize⌉₊
decreasing_by
  have he : newMipSize * (1/4) / mipSize = newMipSize / mipSize / 4 := by
    ring
  rw [he]
  apply nat_ceil_quarter_lt
  rw [lt_div_iff₀ hm]
  linarith

/-- The mip-size adjustment of `SmallPathOp::onPrepareDraws`: when
`mipSize < kIdealMinMIP`, double until at least `kIdealMinMIP`, then
quarter while still above `4 * mipSize`. -/
def adjustedMipSize (mipSize : ℚ) (h : 0 < mipSize) : ℚ :=
  if mipSize < kIdealMinMIP then
    quarterLoop mipSize h (doubleLoop mipSize h)
  else mipSize

/-- The field-mode `desiredDimension` of `SmallPathOp::onPrepareDraws`:
`SkTMin(mipSize, kMaxMIP)` for the adjusted
`mipSize = mipScale * SkScalarAbs(maxDim)`. -/
def desiredDimension (maxScale maxDim : ℚ) (hd : maxDim ≠ 0) : ℚ :=
  min (adjustedMipSize (mipScale maxScale * |maxDim|)
        (mul_pos (mipScale_pos maxScale) (abs_pos.mpr hd))) kMaxMIP

/-- The quartering loop always exits at a value at most `4 * mipSize`. -/
theorem quarterLoop_le_four_mul (m : ℚ) (hm : 0 < m) (y : ℚ) :
    quarterLoop m hm y ≤ 4 * m := by
  have H : ∀ n : ℕ, ∀ y : ℚ, ⌈y / m⌉₊ ≤ n → quarterLoop m hm y ≤ 4 * m := by
    intro n
    induction n with
    | zero =>
        intro y hy
        rw [quarterLoop]
        split
        · next h4 =>
            exfalso
            have hy0 : 0 < y := by linarith
            have hpos : 0 < y / m := div_pos hy0 hm
            have := Nat.ceil_pos.mpr hpos
            omega
        · next h4 => exact not_lt.mp h4
    | succ n ih =>
        intro y hy
        rw [quarterLoop]
        split
        · next h4 =>
            apply ih
            have hdec : ⌈y * (1/4) / m⌉₊ < ⌈y / m⌉₊ := by
              have he : y * (1/4) / m = y / m / 4 := by ring
              rw [he]
              apply nat_ceil_quarter_lt
              rw [lt_div_iff₀ hm]
              linarith
            omega
        · next h4 => exact not_lt.mp h4
  exact H ⌈y / m⌉₊ y le_rfl

/-- The quartering loop never increases a nonnegative value. -/
theorem quarterLoop_le_self (m : ℚ) (hm : 0 < m) (y : ℚ) (hy : 0 ≤ y) :
    quarterLoop m hm y ≤ y := by
  have H : ∀ n : ℕ, ∀ y : ℚ, ⌈y / m⌉₊ ≤ n → 0 ≤ y → quarterLoop m hm y ≤ y := by
    intro n
    induction n with
    | zero =>
        intro y hy hy0
        rw [quarterLoop]
        split
        · next h4 =>
            exfalso
            have hpos : 0 < y / m := div_pos (by linarith) hm
            have := Nat.ceil_pos.mpr hpos
            omega
        · next h4 => exact le_rfl
    | succ n ih =>
        intro y hy hy0
        rw [quarterLoop]
        split
        · next h4 =>
            have hdec : ⌈y * (1/4) / m⌉₊ < ⌈y / m⌉₊ := by
              have he : y * (1/4) / m = y / m / 4 := by ring
              rw [he]
              apply nat_ceil_quarter_lt
              rw [lt_div_iff₀ hm]
              linarith
            have := ih (y * (1/4)) (by omega) (by linarith)
            linarith
        · next h4 => exact le_rfl
  exact H ⌈y / m⌉₊ y le_rfl (by linarith)

/-- Raising the exit threshold never decreases the quartering loop's
result. -/
theorem quarterLoop_mono_threshold (m m2 : ℚ) (hm : 0 < m) (hm2 : 0 < m2)
    (hle : m ≤ m2) (y : ℚ) :
    quarterLoop m hm y ≤ quarterLoop m2 hm2 y := by
  have H : ∀ n : ℕ, ∀ y : ℚ, ⌈y / m⌉₊ ≤ n →
      quarterLoop m hm y ≤ quarterLoop m2 hm2 y := by
    intro n
    induction n with
    | zero =>
        intro y hy
        conv_lhs => rw [quarterLoop]
        conv_rhs => rw [quarterLoop]
        split
        · next h4 =>
            exfalso
            have hpos : 0 < y / m := div_pos (by linarith) hm
            have := Nat.ceil_pos.mpr hpos
            omega
        · next h4 =>
            split
            · next h4b => linarith
            · next h4b => exact le_rfl
    | succ n ih =>
        intro y hy
        conv_lhs => rw [quarterLoop]
        conv_rhs => rw [quarterLoop]
        split
        · next h4 =>
            have hdec : ⌈y * (1/4) / m⌉₊ < ⌈y / m⌉₊ := by
              have he : y * (1/4) / m = y / m / 4 := by ring
              rw [he]
              apply nat_ceil_quarter_lt
              rw [lt_div_iff₀ hm]
              linarith
            split
            · next h4b => exact ih (y * (1/4)) (by omega)
            · next h4b =>
                have h1 : quarterLoop m hm (y * (1/4)) ≤ y * (1/4) :=
                  quarterLoop_le_self m hm (y * (1/4)) (by linarith)
                linarith
        · next h4 =>
            split
            · next h4b => linarith
            · next h4b => exact le_rfl
  exact H ⌈y / m⌉₊ y le_rfl

/-- C4: for every positive original `mipSize` the adjusted mip size
(before the `kMaxMIP` clamp) is at most four times the original: the
double-then-quarter loop pair never exceeds a 4x stretch. -/
theorem c4_adjustedMipSize_le_four_mul (mipSize : ℚ) (h : 0 < mipSize) :
    adjustedMipSize mipSize h ≤ 4 * mipSize := by
  unfold adjustedMipSize
  split
  · exact quarterLoop_le_four_mul mipSize h _
  · linarith

/-- Witness for C4 at `mipSize = 5`. -/
theorem c4_witness :
    (0:ℚ) < 5 ∧ adjustedMipSize 5 (by norm_num) ≤ 4 * 5 :=
  ⟨by norm_num, c4_adjustedMipSize_le_four_mul 5 (by norm_num)⟩

/-- Proof-irrelevant congruence for `adjustedMipSize`. -/
theorem adjustedMipSize_congr {x y : ℚ} (hx : 0 < x) (hy : 0 < y)
    (hxy : x = y) : adjustedMipSize x hx = adjustedMipSize y hy := by
  subst hxy
  rfl

/-- Doubling the input never decreases the adjusted mip size. -/
theorem adjustedMipSize_le_double (y : ℚ) (h : 0 < y) :
    adjustedMipSize y h ≤ adjustedMipSize (y * 2) (by positivity) := by
  by_cases h12 : y * 2 < kIdealMinMIP
  · have hy12 : y < kIdealMinMIP := by linarith
    unfold adjustedMipSize
    rw [if_pos hy12, if_pos h12]
    have hD : doubleLoop y h = doubleLoop (y * 2) (by positivity) := by
      rw [doubleLoop, dif_pos h12]
    rw [hD]
    exact quarterLoop_mono_threshold y (y * 2) h (by positivity) (by linarith) _
  · by_cases hy12 : y < kIdealMinMIP
    · unfold adjustedMipSize
      rw [if_pos hy12, if_neg h12]
      have hD : doubleLoop y h = y * 2 := by
        rw [doubleLoop, dif_neg h12]
      rw [hD]
      have hq : quarterLoop y h (y * 2) = y * 2 := by
        rw [quarterLoop, dif_neg (by linarith)]
      rw [hq]
    · unfold adjustedMipSize
      rw [if_neg hy12, if_neg (by linarith : ¬ y * 2 < kIdealMinMIP)]
      linarith

/-- Scaling the input by any power of two never decreases the adjusted
mip size. -/
theorem adjustedMipSize_le_mul_pow (y : ℚ) (h : 0 < y) (n : ℕ) :
    adjustedMipSize y h ≤ adjustedMipSize (y * 2 ^ n) (by positivity) := by
  induction n with
  | zero =>
      exact le_of_eq (adjustedMipSize_congr h (by positivity) (by ring))
  | succ n ih =>
      calc adjustedMipSize y h
          ≤ adjustedMipSize (y * 2 ^ n) (by positivity) := ih
        _ ≤ adjustedMipSize (y * 2 ^ n * 2) (by positivity) :=
            adjustedMipSize_le_double (y * 2 ^ n) (by positivity)
        _ = adjustedMipSize (y * 2 ^ (n + 1)) (by positivity) :=
            adjustedMipSize_congr (by positivity) (by positivity) (by ring)

/-- C5: for a fixed shape dimension and two transform maximum-scale
factors `1 < s1 < s2`, the field resolution `desiredDimension` chosen
for `s2` is at least the one chosen for `s1`, and for every scale
factor the chosen resolution never exceeds `kMaxMIP = 162`. -/
theorem c5_desiredDimension_monotone (s1 s2 maxDim : ℚ)
    (h1 : 1 < s1) (h12 : s1 < s2) (hd : maxDim ≠ 0) :
    desiredDimension s1 maxDim hd ≤ desiredDimension s2 maxDim hd ∧
    (∀ s : ℚ, desiredDimension s maxDim hd ≤ kMaxMIP ∧ kMaxMIP = 162) := by
  constructor
  · have h2 : 1 < s2 := h1.trans h12
    have hs1 : 0 < s1 := by linarith
    have hk : Int.clog 2 s1 ≤ Int.clog 2 s2 :=
      Int.clog_mono_right hs1 (le_of_lt h12)
    have hm1 : mipScale s1 = (2:ℚ) ^ (Int.clog 2 s1) := by
      unfold mipScale
      rw [if_neg (by linarith), if_pos h1]
    have hm2 : mipScale s2 = (2:ℚ) ^ (Int.clog 2 s2) := by
      unfold mipScale
      rw [if_neg (by linarith), if_pos h2]
    have habs : (0:ℚ) < |maxDim| := abs_pos.mpr hd
    have hsplit : mipScale s2 * |maxDim|
        = (mipScale s1 * |maxDim|) * 2 ^ ((Int.clog 2 s2 - Int.clog 2 s1).toNat) := by
      rw [hm1, hm2]
      rw [mul_comm ((2:ℚ) ^ (Int.clog 2 s1)) _, mul_assoc]
      rw [mul_comm ((2:ℚ) ^ (Int.clog 2 s2)) _]
      congr 1
      rw [← zpow_natCast (2:ℚ) (Int.clog 2 s2 - Int.clog 2 s1).toNat,
          Int.toNat_of_nonneg (by omega), ← zpow_add₀ (by norm_num : (2:ℚ) ≠ 0)]
      congr 1
      omega
    unfold desiredDimension
    apply min_le_min _ le_rfl
    have hx1 : (0:ℚ) < mipScale s1 * |maxDim| :=
      mul_pos (mipScale_pos s1) habs
    have hx2 : (0:ℚ) < mipScale s2 * |maxDim| :=
      mul_pos (mipScale_pos s2) habs
    have hx1n : (0:ℚ) < (mipScale s1 * |maxDim|) *
        2 ^ ((Int.clog 2 s2 - Int.clog 2 s1).toNat) :=
      mul_pos hx1 (by positivity)
    calc adjustedMipSize (mipScale s1 * |maxDim|) _
        ≤ adjustedMipSize ((mipScale s1 * |maxDim|) *
            2 ^ ((Int.clog 2 s2 - Int.clog 2 s1).toNat)) hx1n :=
          adjustedMipSize_le_mul_pow _ hx1 _
      _ = adjustedMipSize (mipScale s2 * |maxDim|) hx2 :=
          adjustedMipSize_congr hx1n hx2 hsplit.symm
  · intro s
    exact ⟨min_le_right _ _, by norm_num [kMaxMIP]⟩

/-- Witness for C5 at `s1 = 2 < s2 = 3`, `maxDim = 10`. -/
theorem c5_witness :
    (1:ℚ) < 2 ∧ (2:ℚ) < 3 ∧ (10:ℚ) ≠ 0 ∧
    desiredDimension 2 10 (by norm_num) ≤ desiredDimension 3 10 (by norm_num) :=
  ⟨by norm_num, by norm_num, by norm_num,
    (c5_desiredDimension_monotone 2 3 10 (by norm_num) (by norm_num)
      (by norm_num)).1⟩

/-- A `ShapeData` record: `fKey` models the opaque `ShapeData::Key`
(shape identity plus dimension or matrix), `fID` the
`GrDrawOpAtlas::AtlasID` of the plot backing the rendition. -/
structure ShapeData where
  fKey : ℕ
  fID : ℕ
deriving DecidableEq, Repr

/-- Modelled from the spec: the shape cache `SkTDynamicHash` (not in
src) is a key-addressed container with `find`/`add`/`remove`; it is
modelled as the list of its records, `find` returning the entry with
the given key. -/
def shapeCacheFind (key : ℕ) : List ShapeData → Option ShapeData
  | [] => none
  | d :: rest => if d.fKey = key then some d else shapeCacheFind key rest

/-- Modelled from the spec: `SkTDynamicHash::remove(key)` removes the
entry stored under `key`. -/
def shapeCacheRemove (key : ℕ) : List ShapeData → List ShapeData
  | [] => []
  | d :: rest => if d.fKey = key then rest else d :: shapeCacheRemove key rest

/-- Keys of a cache/list are pairwise distinct (the `SkTDynamicHash`
unique-key invariant). -/
def keysNodup (c : List ShapeData) : Prop :=
  (c.map ShapeData.fKey).Nodup

/-- Source `GrSmallPathRenderer::HandleEviction` body: iterate the
liveness list (`ShapeDataList::Iter`, advanced before removal); for
every record whose `fID` matches the evicted atlas id, remove it from
the shape cache by its key, unlink it from the list, and destroy it.
The pair is `(fShapeCache, fShapeList)` after the scan. -/
def handleEvictionGo (id : ℕ) (cache : List ShapeData) :
    List ShapeData → List ShapeData × List ShapeData
  | [] => (cache, [])
  | d :: rest =>
      if d.fID = id then
        handleEvictionGo id (shapeCacheRemove d.fKey cache) rest
      else
        let p := handleEvictionGo id cache rest
        (p.1, d :: p.2)

/-- Source `GrSmallPathRenderer::HandleEviction` on the renderer state
`(fShapeCache, fShapeList)`. -/
def HandleEviction (id : ℕ) (cache shapeList : List ShapeData) :
    List ShapeData × List ShapeData :=
  handleEvictionGo id cache shapeList

/-- Removal by key yields a sublist of the cache. -/
theorem shapeCacheRemove_sublist (key : ℕ) (c : List ShapeData) :
    (shapeCacheRemove key c).Sublist c := by
  induction c with
  | nil => simp [shapeCacheRemove]
  | cons d rest ih =>
      rw [shapeCacheRemove]
      split
      · exact (List.sublist_cons_self d rest)
      · exact List.Sublist.cons₂ d ih

/-- Membership survives removal by a different key. -/
theorem mem_shapeCacheRemove_of_ne (key : ℕ) (c : List ShapeData)
    (e : ShapeData) (he : e ∈ c) (hk : e.fKey ≠ key) :
    e ∈ shapeCacheRemove key c := by
  induction c with
  | nil => cases he
  | cons d rest ih =>
      rw [shapeCacheRemove]
      rcases List.mem_cons.mp he with rfl | hrest
      · rw [if_neg (by simpa using hk)]
        exact List.mem_cons_self _ _
      · split
        · exact hrest
        · exact List.mem_cons_of_mem _ (ih hrest)

/-- Under unique keys, no member of `shapeCacheRemove key c` carries
`key`, provided some member of `c` does carry it (the removed one). -/
theorem shapeCacheRemove_key_not_mem (key : ℕ) (c : List ShapeData)
    (hc : keysNodup c) (e : ShapeData)
    (he : e ∈ shapeCacheRemove key c) (hk : e.fKey = key) : False := by
  induction c with
  | nil => cases he
  | cons d rest ih =>
      rw [shapeCacheRemove] at he
      unfold keysNodup at hc
      simp only [List.map_cons, List.nodup_cons] at hc
      split at he
      · next hd =>
          exact hc.1 (by
            rw [hd, ← hk]
            exact List.mem_map_of_mem ShapeData.fKey he)
      · next hd =>
          rcases List.mem_cons.mp he with rfl | hrest
          · exact hd hk
          · exact ih hc.2 hrest

/-- Under unique keys, `find` locates exactly a given member. -/
theorem shapeCacheFind_of_mem (c : List ShapeData) (hc : keysNodup c)
    (e : ShapeData) (he : e ∈ c) : shapeCacheFind e.fKey c = some e := by
  induction c with
  | nil => cases he
  | cons d rest ih =>
      unfold keysNodup at hc
      simp only [List.map_cons, List.nodup_cons] at hc
      rw [shapeCacheFind]
      rcases List.mem_cons.mp he with rfl | hrest
      · rw [if_pos rfl]
      · split
        · next hd =>
            exfalso
            exact hc.1 (by rw [hd]; exact List.mem_map_of_mem ShapeData.fKey hrest)
        · exact ih hc.2 hrest

/-- A successful `find` returns a member carrying the requested key. -/
theorem shapeCacheFind_mem (key : ℕ) (c : List ShapeData)
    (e : ShapeData) (h : shapeCacheFind key c = some e) :
    e ∈ c ∧ e.fKey = key := by
  induction c with
  | nil => cases h
  | cons d rest ih =>
      rw [shapeCacheFind] at h
      split at h
      · next hd =>
          cases h
          exact ⟨List.mem_cons_self _ _, hd⟩
      · have := ih h
        exact ⟨List.mem_cons_of_mem _ this.1, this.2⟩

/-- Unique keys make records with equal keys identical. -/
theorem keysNodup_eq_of_mem {l : List ShapeData} (hl : keysNodup l)
    {e d2 : ShapeData} (he : e ∈ l) (hd2 : d2 ∈ l)
    (hk : e.fKey = d2.fKey) : e = d2 := by
  induction l with
  | nil => cases he
  | cons a rest ih =>
      unfold keysNodup at hl
      simp only [List.map_cons, List.nodup_cons] at hl
      rcases List.mem_cons.mp he with rfl | he2
      · rcases List.mem_cons.mp hd2 with rfl | hd3
        · rfl
        · exact absurd (by rw [hk]; exact List.mem_map_of_mem ShapeData.fKey hd3) hl.1
      · rcases List.mem_cons.mp hd2 with rfl | hd3
        · exact absurd (by rw [← hk]; exact List.mem_map_of_mem ShapeData.fKey he2) hl.1
        · exact ih hl.2 he2 hd3

/-- Removal by key preserves the unique-key invariant. -/
theorem keysNodup_shapeCacheRemove (key : ℕ) (c : List ShapeData)
    (hc : keysNodup c) : keysNodup (shapeCacheRemove key c) :=
  List.Nodup.sublist (List.Sublist.map ShapeData.fKey
    (shapeCacheRemove_sublist key c)) hc

/-- The eviction scan only removes cache entries. -/
theorem handleEvictionGo_cache_sublist (id : ℕ) :
    ∀ (l cache : List ShapeData),
    ((handleEvictionGo id cache l).1).Sublist cache := by
  intro l
  induction l with
  | nil => intro cache; exact List.Sublist.refl cache
  | cons d rest ih =>
      intro cache
      simp only [handleEvictionGo]
      split
      · exact (ih _).trans (shapeCacheRemove_sublist _ _)
      · exact ih cache

/-- The liveness list after the eviction scan is exactly the original
list restricted to the surviving atlas ids, in order. -/
theorem handleEvictionGo_list (id : ℕ) :
    ∀ (l cache : List ShapeData),
    (handleEvictionGo id cache l).2
      = l.filter (fun d => decide (d.fID ≠ id)) := by
  intro l
  induction l with
  | nil => intro cache; rfl
  | cons d rest ih =>
      intro cache
      simp only [handleEvictionGo]
      split
      · next hd => rw [ih]; simp [List.filter_cons, hd]
      · next hd => simp [List.filter_cons, hd, ih cache]

/-- Cache membership after the eviction scan: exactly the records of
the original cache whose atlas id differs from the evicted one, given
the dual-indexing invariants (unique keys; every cache record bound to
the evicted id is reachable in the scan list; keys agree between the
two structures). -/
theorem handleEvictionGo_cache_mem (id : ℕ) :
    ∀ (l cache : List ShapeData), keysNodup cache →
    (∀ e, e ∈ cache → ∀ d2, d2 ∈ l → e.fKey = d2.fKey → e = d2) →
    (∀ e, e ∈ cache → e.fID = id → e ∈ l) →
    ∀ e, e ∈ (handleEvictionGo id cache l).1 ↔ (e ∈ cache ∧ e.fID ≠ id) := by
  intro l
  induction l with
  | nil =>
      intro cache hc hkey hin e
      simp only [handleEvictionGo]
      constructor
      · intro he
        exact ⟨he, fun hid => by cases hin e he hid⟩
      · intro h
        exact h.1
  | cons d rest ih =>
      intro cache hc hkey hin e
      simp only [handleEvictionGo]
      split
      · next hd =>
          have hc2 : keysNodup (shapeCacheRemove d.fKey cache) :=
            keysNodup_shapeCacheRemove _ _ hc
          have hkey2 : ∀ e2, e2 ∈ shapeCacheRemove d.fKey cache →
              ∀ d2, d2 ∈ rest → e2.fKey = d2.fKey → e2 = d2 := by
            intro e2 he2 d2 hd2 hk
            exact hkey e2 ((shapeCacheRemove_sublist _ _).mem he2) d2
              (List.mem_cons_of_mem _ hd2) hk
          have hin2 : ∀ e2, e2 ∈ shapeCacheRemove d.fKey cache →
              e2.fID = id → e2 ∈ rest := by
            intro e2 he2 hid
            have he2c : e2 ∈ cache := (shapeCacheRemove_sublist _ _).mem he2
            rcases List.mem_cons.mp (hin e2 he2c hid) with rfl | h
            · exact (shapeCacheRemove_key_not_mem e2.fKey cache hc e2 he2 rfl).elim
            · exact h
          rw [ih (shapeCacheRemove d.fKey cache) hc2 hkey2 hin2 e]
          constructor
          · intro h
            exact ⟨(shapeCacheRemove_sublist _ _).mem h.1, h.2⟩
          · intro h
            refine ⟨mem_shapeCacheRemove_of_ne _ _ _ h.1 ?_, h.2⟩
            intro hk
            have heq := hkey e h.1 d (List.mem_cons_self _ _) hk
            exact h.2 (by rw [heq]; exact hd)
      · next hd =>
          have hkey2 : ∀ e2, e2 ∈ cache →
              ∀ d2, d2 ∈ rest → e2.fKey = d2.fKey → e2 = d2 :=
            fun e2 he2 d2 hd2 hk =>
              hkey e2 he2 d2 (List.mem_cons_of_mem _ hd2) hk
          have hin2 : ∀ e2, e2 ∈ cache → e2.fID = id → e2 ∈ rest := by
            intro e2 he2 hid
            rcases List.mem_cons.mp (hin e2 he2 hid) with rfl | h
            · exact absurd hid hd
            · exact h
          exact ih cache hc hkey2 hin2 e

/-- C1: after `HandleEviction(R)` no record bound to atlas region `R`
is findable in the shape cache under any key nor present in the
liveness list; every such record is removed from both structures, and
records bound to other regions survive untouched (still findable under
their key, list order preserved). -/
theorem c1_HandleEviction_complete (id : ℕ) (cache shapeList : List ShapeData)
    (hc : keysNodup cache) (hl : keysNodup shapeList)
    (hsame : ∀ d, d ∈ cache ↔ d ∈ shapeList) :
    (∀ key e, shapeCacheFind key (HandleEviction id cache shapeList).1 = some e →
      e.fID ≠ id) ∧
    (∀ e, e ∈ (HandleEviction id cache shapeList).2 → e.fID ≠ id) ∧
    (∀ e, e.fID = id →
      e ∉ (HandleEviction id cache shapeList).1 ∧
      e ∉ (HandleEviction id cache shapeList).2) ∧
    (∀ e, e ∈ cache → e.fID ≠ id →
      e ∈ (HandleEviction id cache shapeList).1 ∧
      shapeCacheFind e.fKey (HandleEviction id cache shapeList).1 = some e) ∧
    (HandleEviction id cache shapeList).2
      = shapeList.filter (fun d => decide (d.fID ≠ id)) ∧
    ((HandleEviction id cache shapeList).1).Sublist cache := by
  have hkey0 : ∀ e, e ∈ cache → ∀ d2, d2 ∈ shapeList →
      e.fKey = d2.fKey → e = d2 := by
    intro e he d2 hd2 hk
    exact keysNodup_eq_of_mem hl ((hsame e).mp he) hd2 hk
  have hin0 : ∀ e, e ∈ cache → e.fID = id → e ∈ shapeList :=
    fun e he _ => (hsame e).mp he
  have hmem : ∀ e, e ∈ (HandleEviction id cache shapeList).1 ↔
      (e ∈ cache ∧ e.fID ≠ id) :=
    handleEvictionGo_cache_mem id shapeList cache hc hkey0 hin0
  have hsub : ((HandleEviction id cache shapeList).1).Sublist cache :=
    handleEvictionGo_cache_sublist id shapeList cache
  have hlist : (HandleEviction id cache shapeList).2
      = shapeList.filter (fun d => decide (d.fID ≠ id)) :=
    handleEvictionGo_list id shapeList cache
  have hc2 : keysNodup (HandleEviction id cache shapeList).1 :=
    List.Nodup.sublist (List.Sublist.map ShapeData.fKey hsub) hc
  refine ⟨?_, ?_, ?_, ?_, hlist, hsub⟩
  · intro key e hfind
    exact ((hmem e).mp (shapeCacheFind_mem key _ e hfind).1).2
  · intro e he
    rw [hlist] at he
    simpa using List.of_mem_filter he
  · intro e hid
    constructor
    · intro he
      exact ((hmem e).mp he).2 hid
    · intro he
      rw [hlist] at he
      exact (by simpa using List.of_mem_filter he : e.fID ≠ id) hid
  · intro e he hid
    have hmem2 : e ∈ (HandleEviction id cache shapeList).1 :=
      (hmem e).mpr ⟨he, hid⟩
    exact ⟨hmem2, shapeCacheFind_of_mem _ hc2 e hmem2⟩

/-- Witness for C1 on a concrete two-record state, evicting region 7. -/
theorem c1_witness :
    (⟨1, 7⟩ : ShapeData) ∉
      (HandleEviction 7 [⟨1, 7⟩, ⟨2, 9⟩] [⟨1, 7⟩, ⟨2, 9⟩]).1 ∧
    (⟨1, 7⟩ : ShapeData) ∉
      (HandleEviction 7 [⟨1, 7⟩, ⟨2, 9⟩] [⟨1, 7⟩, ⟨2, 9⟩]).2 :=
  (c1_HandleEviction_complete 7 [⟨1, 7⟩, ⟨2, 9⟩] [⟨1, 7⟩, ⟨2, 9⟩]
    (by unfold keysNodup; decide) (by unfold keysNodup; decide)
    (fun d => Iff.rfl)).2.2.1 ⟨1, 7⟩ rfl

/-- Modelled from the spec: the atlas contract `allocate -> success`
(GrDrawOpAtlas is not in src).  A shape-insertion request is abstracted
by the outcomes the atlas would return: `alloc1` for the first
`addToAtlas` attempt and `alloc2` for the attempt after the forced
flush (consulted only when the first fails). -/
structure ShapeReq where
  alloc1 : Bool
  alloc2 : Bool
deriving DecidableEq, Repr

/-- Source `SmallPathOp::flush` at the instance-count level: one draw
covering the accumulated `fInstancesToFlush` instances is submitted iff
the count is nonzero, and the count resets. -/
def flushCounts (fInstancesToFlush : ℕ) : List ℕ :=
  if fInstancesToFlush = 0 then [] else [fInstancesToFlush]

/-- Allocation section of `SmallPathOp::addDFPathToAtlas` /
`addBMPathToAtlas`: if the first `addToAtlas` fails, `flush` the
pending instances and retry exactly once; a second failure returns
`false`.  Result: (success, draws emitted by the forced flush,
remaining pending count). -/
def addPathToAtlasM (s : ShapeReq) (pending : ℕ) : Bool × List ℕ × ℕ :=
  if s.alloc1 then (true, [], pending)
  else
    let fl := flushCounts pending
    if s.alloc2 then (true, fl, 0) else (false, fl, 0)

/-- The per-shape loop of `SmallPathOp::onPrepareDraws`: on a failed
insertion the shape is skipped (`continue`), otherwise its vertices are
written and `fInstancesToFlush` is incremented.  Returns (draws emitted
by forced flushes, indices of shapes whose vertices were written,
pending count at loop exit). -/
def runPrepareGo : ℕ → ℕ → List ShapeReq → List ℕ × List ℕ × ℕ
  | _, pending, [] => ([], [], pending)
  | i, pending, s :: rest =>
      let a := addPathToAtlasM s pending
      let r := runPrepareGo (i + 1) (a.2.2 + (if a.1 then 1 else 0)) rest
      if a.1 then (a.2.1 ++ r.1, i :: r.2.1, r.2.2)
      else (a.2.1 ++ r.1, r.2.1, r.2.2)

/-- Source `SmallPathOp::onPrepareDraws` over a batch of insertion
requests: run the loop from an empty accumulator, then the final
`this->flush(target, &flushInfo)`.  Returns (all submitted draw
instance counts in order, indices of shapes drawn). -/
def runPrepare (shapes : List ShapeReq) : List ℕ × List ℕ :=
  let r := runPrepareGo 0 0 shapes
  (r.1 ++ flushCounts r.2.2, r.2.1)

/-- A shape insertion reqSucceeds iff the first or the retried allocation
reqSucceeds. -/
def reqSucceeds (s : ShapeReq) : Bool := s.alloc1 || s.alloc2

/-- Indices (from `i`) of the requests that succeed, in order. -/
def succIdxFrom (i : ℕ) : List ShapeReq → List ℕ
  | [] => []
  | s :: rest =>
      if reqSucceeds s then i :: succIdxFrom (i + 1) rest
      else succIdxFrom (i + 1) rest

/-- A flush emits exactly the pending instances. -/
theorem flushCounts_sum (p : ℕ) : (flushCounts p).sum = p := by
  unfold flushCounts
  split
  · next h => simp [h]
  · simp

/-- The written-shape indices of the prepare loop are exactly the
successful requests, in order. -/
theorem runPrepareGo_written :
    ∀ (l : List ShapeReq) (i p : ℕ),
    (runPrepareGo i p l).2.1 = succIdxFrom i l := by
  intro l
  induction l with
  | nil => intro i p; rfl
  | cons s rest ih =>
      intro i p
      simp only [runPrepareGo, succIdxFrom]
      cases hs1 : s.alloc1 with
      | true => simp [addPathToAtlasM, hs1, reqSucceeds, ih]
      | false =>
          cases hs2 : s.alloc2 with
          | true => simp [addPathToAtlasM, hs1, hs2, reqSucceeds, ih]
          | false => simp [addPathToAtlasM, hs1, hs2, reqSucceeds, ih]

/-- Conservation: the draws emitted so far plus the still-pending
count equal the initial pending count plus the number of successes. -/
theorem runPrepareGo_sum :
    ∀ (l : List ShapeReq) (i p : ℕ),
    ((runPrepareGo i p l).1).sum + (runPrepareGo i p l).2.2
      = p + (l.filter reqSucceeds).length := by
  intro l
  induction l with
  | nil => intro i p; simp [runPrepareGo]
  | cons s rest ih =>
      intro i p
      simp only [runPrepareGo]
      cases hs1 : s.alloc1 with
      | true =>
          simp only [addPathToAtlasM, hs1, if_true, List.nil_append]
          rw [ih]
          have hf : reqSucceeds s = true := by simp [reqSucceeds, hs1]
          simp [List.filter_cons, hf]
          omega
      | false =>
          cases hs2 : s.alloc2 with
          | true =>
              simp only [addPathToAtlasM, hs1, hs2, Bool.false_eq_true,
                if_false, if_true, List.sum_append]
              rw [add_assoc, ih]
              have hf : reqSucceeds s = true := by simp [reqSucceeds, hs2]
              simp [List.filter_cons, hf, flushCounts_sum]
              omega
          | false =>
              simp only [addPathToAtlasM, hs1, hs2, Bool.false_eq_true,
                if_false, List.sum_append]
              rw [add_assoc, ih]
              have hf : reqSucceeds s = false := by simp [reqSucceeds, hs1, hs2]
              simp [List.filter_cons, hf, flushCounts_sum]

/-- Membership in the successful-index list. -/
theorem mem_succIdxFrom :
    ∀ (l : List ShapeReq) (i j : ℕ),
    j ∈ succIdxFrom i l ↔
    ∃ k, ∃ hk : k < l.length, j = i + k ∧
      reqSucceeds (l.get ⟨k, hk⟩) = true := by
  intro l
  induction l with
  | nil => intro i j; simp [succIdxFrom]
  | cons s rest ih =>
      intro i j
      rw [succIdxFrom]
      by_cases hs : reqSucceeds s = true
      · rw [if_pos hs]
        simp only [List.mem_cons]
        constructor
        · rintro (rfl | hj)
          · exact ⟨0, by simp, by omega, by simpa using hs⟩
          · obtain ⟨k, hk, rfl, hsk⟩ := (ih (i + 1) j).mp hj
            refine ⟨k + 1, by simpa using Nat.succ_lt_succ hk, by omega, ?_⟩
            simpa using hsk
        · rintro ⟨k, hk, rfl, hsk⟩
          cases k with
          | zero => exact Or.inl (by omega)
          | succ k =>
              right
              refine (ih (i + 1) (i + (k + 1))).mpr
                ⟨k, by simpa using Nat.lt_of_succ_lt_succ (by simpa using hk),
                  by omega, by simpa using hsk⟩
      · rw [if_neg hs]
        constructor
        · intro hj
          obtain ⟨k, hk, rfl, hsk⟩ := (ih (i + 1) j).mp hj
          refine ⟨k + 1, by simpa using Nat.succ_lt_succ hk, by omega, ?_⟩
          simpa using hsk
        · rintro ⟨k, hk, rfl, hsk⟩
          cases k with
          | zero => exact absurd (by simpa using hsk) hs
          | succ k =>
              refine (ih (i + 1) (i + (k + 1))).mpr
                ⟨k, by simpa using Nat.lt_of_succ_lt_succ (by simpa using hk),
                  by omega, by simpa using hsk⟩

/-- C2: a failed first allocation triggers a flush of exactly the
already-accumulated instances and one retry; a second failure skips
just that shape (no vertex write, no instance) while every other shape
of the batch is still processed and drawn, no draw is lost, and the
batch is never aborted.  The per-shape retry protocol is stated via
`addPathToAtlasM`, the batch behaviour via `runPrepare`. -/
theorem c2_flush_retry_skip (shapes : List ShapeReq) :
    (runPrepare shapes).2 = succIdxFrom 0 shapes ∧
    ((runPrepare shapes).1).sum = (shapes.filter reqSucceeds).length ∧
    (∀ i, ∀ hi : i < shapes.length,
      reqSucceeds (shapes.get ⟨i, hi⟩) = false → i ∉ (runPrepare shapes).2) ∧
    (∀ i, ∀ hi : i < shapes.length,
      reqSucceeds (shapes.get ⟨i, hi⟩) = true → i ∈ (runPrepare shapes).2) ∧
    (∀ s p, s.alloc1 = false →
      addPathToAtlasM s p = (s.alloc2, flushCounts p, 0)) ∧
    (∀ s p, s.alloc1 = true → addPathToAtlasM s p = (true, [], p)) := by
  have hwr : (runPrepare shapes).2 = succIdxFrom 0 shapes :=
    runPrepareGo_written shapes 0 0
  have hsum : ((runPrepare shapes).1).sum = (shapes.filter reqSucceeds).length := by
    show ((runPrepareGo 0 0 shapes).1 ++ flushCounts (runPrepareGo 0 0 shapes).2.2).sum = _
    rw [List.sum_append, flushCounts_sum]
    simpa using runPrepareGo_sum shapes 0 0
  refine ⟨hwr, hsum, ?_, ?_, ?_, ?_⟩
  · intro i hi hfail hmem
    rw [hwr] at hmem
    obtain ⟨k, hk, hik, hsk⟩ := (mem_succIdxFrom shapes 0 i).mp hmem
    have : k = i := by omega
    subst this
    rw [hfail] at hsk
    cases hsk
  · intro i hi hsucc
    rw [hwr]
    exact (mem_succIdxFrom shapes 0 i).mpr ⟨i, hi, by omega, hsucc⟩
  · intro s p h1
    cases hs2 : s.alloc2 with
    | true => simp [addPathToAtlasM, h1, hs2]
    | false => simp [addPathToAtlasM, h1, hs2]
  · intro s p h1
    simp [addPathToAtlasM, h1]

/-- Witness for C2: with five pending instances, a failed first
allocation flushes exactly those five and retries once. -/
theorem c2_witness :
    (⟨false, false⟩ : ShapeReq).alloc1 = false ∧
    addPathToAtlasM ⟨false, false⟩ 5 = (false, [5], 0) := by
  refine ⟨rfl, ?_⟩
  have h := (c2_flush_retry_skip [⟨false, false⟩]).2.2.2.2.1
    ⟨false, false⟩ 5 rfl
  rw [h]
  rfl

/-- Source `SmallPathOp::flush`: the chunk capacity is the index
buffer's byte size divided by `sizeof(uint16_t)` and by the 6 indices
per instance (`kIndicesPerQuad`). -/
def maxInstancesPerDraw (indexBufferBytes : ℕ) : ℕ :=
  indexBufferBytes / 2 / 6

/-- Modelled from the spec: the patterned-mesh split performed inside
`target->draw` for `GrMesh::setIndexedPatterned` (GrMesh is not in
src): the accumulated instances are emitted as successive draw calls of
at most `C` instances each, in order.  `fuel` is the structural bound
(instantiated with the list length). -/
def chunksGo {α : Type} (C : ℕ) : ℕ → List α → List (List α)
  | 0, _ => []
  | _ + 1, [] => []
  | fuel + 1, x :: xs => (x :: xs).take C :: chunksGo C fuel ((x :: xs).drop C)

/-- The draw-call chunks of one patterned mesh. -/
def patternedDrawChunks {α : Type} (C : ℕ) (l : List α) : List (List α) :=
  chunksGo C l.length l

/-- Source `SmallPathOp::flush` at the instance level: no draw call at
all when `fInstancesToFlush` is zero, else the patterned chunk split. -/
def flushDraws {α : Type} (C : ℕ) (instances : List α) : List (List α) :=
  if instances.isEmpty then [] else patternedDrawChunks C instances

/-- The chunks concatenate back to the original instance list. -/
theorem chunksGo_flatten {α : Type} (C : ℕ) (hC : 0 < C) :
    ∀ (fuel : ℕ) (l : List α), l.length ≤ fuel →
    (chunksGo C fuel l).flatten = l := by
  intro fuel
  induction fuel with
  | zero =>
      intro l hl
      have : l = [] := List.length_eq_zero.mp (by omega)
      subst this
      rfl
  | succ fuel ih =>
      intro l hl
      cases l with
      | nil => rfl
      | cons x xs =>
          rw [chunksGo, List.flatten_cons]
          rw [ih ((x :: xs).drop C) (by
            simp only [List.length_drop, List.length_cons]
            simp only [List.length_cons] at hl
            omega)]
          exact List.take_append_drop C (x :: xs)

/-- Each chunk holds at most `C` instances. -/
theorem chunksGo_size {α : Type} (C : ℕ) :
    ∀ (fuel : ℕ) (l : List α) (ch : List α),
    ch ∈ chunksGo C fuel l → ch.length ≤ C := by
  intro fuel
  induction fuel with
  | zero => intro l ch h; simp [chunksGo] at h
  | succ fuel ih =>
      intro l ch h
      cases l with
      | nil => simp [chunksGo] at h
      | cons x xs =>
          rw [chunksGo] at h
          rcases List.mem_cons.mp h with rfl | h2
          · simp only [List.length_take]
            omega
          · exact ih _ ch h2

/-- The number of chunks is the ceiling of `length / C`. -/
theorem chunksGo_length {α : Type} (C : ℕ) (hC : 0 < C) :
    ∀ (fuel : ℕ) (l : List α), l.length ≤ fuel →
    (chunksGo C fuel l).length = (l.length + C - 1) / C := by
  intro fuel
  induction fuel with
  | zero =>
      intro l hl
      have h0 : l = [] := List.length_eq_zero.mp (by omega)
      subst h0
      have hz : (C - 1) / C = 0 := Nat.div_eq_of_lt (by omega)
      simp [chunksGo, hz]
  | succ fuel ih =>
      intro l hl
      cases l with
      | nil =>
          have hz : (C - 1) / C = 0 := Nat.div_eq_of_lt (by omega)
          simp [chunksGo, hz]
      | cons x xs =>
          rw [chunksGo]
          rw [List.length_cons, ih ((x :: xs).drop C) (by
            simp only [List.length_drop, List.length_cons]
            simp only [List.length_cons] at hl
            omega)]
          rw [List.length_drop]
          set N := (x :: xs).length with hN
          have hN1 : 1 ≤ N := by simp [hN]
          rcases le_or_lt N C with hNC | hNC
          · have h0 : N - C = 0 := by omega
            rw [h0]
            have ha : (0 + C - 1) / C = 0 := by
              rw [Nat.zero_add]
              exact Nat.div_eq_of_lt (by omega)
            have hb : (N + C - 1) / C = 1 := by
              apply Nat.div_eq_of_lt_le
              · omega
              · omega
            omega
          · have h1 : N - C + C - 1 = N - 1 := by omega
            have h2 : N + C - 1 = (N - 1) + C := by omega
            rw [h1, h2, Nat.add_div_right _ hC]

/-- C8: a flush of `N` pending instances with chunk capacity `C`
(the index buffer's index capacity divided by 6) submits
`ceil(N / C)` draw calls, each of at most `C` instances, jointly
covering exactly the accumulated instances in order; a flush of zero
instances submits no draw call. -/
theorem c8_flush_chunking {α : Type} (indexBufferBytes : ℕ)
    (hC : 0 < maxInstancesPerDraw indexBufferBytes) (instances : List α) :
    ((flushDraws (maxInstancesPerDraw indexBufferBytes) instances).length
      = (instances.length + maxInstancesPerDraw indexBufferBytes - 1)
          / maxInstancesPerDraw indexBufferBytes) ∧
    (∀ ch ∈ flushDraws (maxInstancesPerDraw indexBufferBytes) instances,
      ch.length ≤ maxInstancesPerDraw indexBufferBytes) ∧
    ((flushDraws (maxInstancesPerDraw indexBufferBytes) instances).flatten
      = instances) ∧
    (instances = [] →
      flushDraws (maxInstancesPerDraw indexBufferBytes) instances = []) := by
  set C := maxInstancesPerDraw indexBufferBytes with hCdef
  unfold flushDraws
  cases instances with
  | nil =>
      have h0 : (C - 1) / C = 0 := Nat.div_eq_of_lt (by omega)
      refine ⟨by simp [h0], by simp, by simp, fun _ => by simp⟩
  | cons x xs =>
      rw [if_neg (by simp)]
      refine ⟨?_, ?_, ?_, ?_⟩
      · exact chunksGo_length C hC _ _ le_rfl
      · intro ch hch
        exact chunksGo_size C _ _ ch hch
      · exact chunksGo_flatten C hC _ _ le_rfl
      · intro h
        cases h

/-- Witness for C8 with a 24-byte index buffer (capacity 2) and three
instances: two draw calls, `[10, 20]` then `[30]`. -/
theorem c8_witness :
    0 < maxInstancesPerDraw 24 ∧
    (flushDraws (maxInstancesPerDraw 24) [10, 20, 30]).flatten
      = [10, 20, 30] :=
  ⟨by norm_num [maxInstancesPerDraw],
    (c8_flush_chunking 24 (by norm_num [maxInstancesPerDraw])
      [10, 20, 30]).2.2.1⟩

/-- A non-perspective `SkMatrix` (the renderer rejects perspective):
the six affine entries.  `cheapEqualTo` is bitwise comparison, i.e.
structure equality in the exact model. -/
structure SkMatrixQ where
  scaleX : ℚ
  skewX : ℚ
  transX : ℚ
  skewY : ℚ
  scaleY : ℚ
  transY : ℚ
deriving DecidableEq, Repr

/-- State of one `SmallPathOp` as read by `onCombineIfPossible`.
Modelled from the spec: `GrSimpleMeshDrawOpHelperWithStencil` (not in
src) contributes only its antialiasing/stencil pipeline state, which is
abstracted into the token `helperState`, plus `usesLocalCoords`;
`isCompatible` is compatibility (equality) of that state. -/
structure SmallPathOpState where
  helperState : ℕ
  usesLocalCoords : Bool
  fUsesDistanceField : Bool
  fViewMatrix : SkMatrixQ
  fTranslate0 : ℚ × ℚ
deriving DecidableEq, Repr

/-- Modelled from the spec: `fHelper.isCompatible` — the two ops share
antialiasing/stencil pipeline state. -/
def helperIsCompatible (a b : SmallPathOpState) : Bool :=
  decide (a.helperState = b.helperState ∧
    a.usesLocalCoords = b.usesLocalCoords)

/-- Source `SkPoint::equalsWithinTolerance` with the default tolerance
`SK_ScalarNearlyZero = 1/4096`. -/
def equalsWithinTolerance (p q : ℚ × ℚ) : Bool :=
  decide (|p.1 - q.1| ≤ 1/4096 ∧ |p.2 - q.2| ≤ 1/4096)

/-- Source `SmallPathOp::onCombineIfPossible`: helper compatibility,
equal rendition mode, `cheapEqualTo` view matrices (in both modes —
`TODO We can position on the cpu for distance field paths`), and for
bitmap mode with local coordinates, integer translations equal within
tolerance. -/
def onCombineIfPossible (a b : SmallPathOpState) : Bool :=
  if helperIsCompatible a b = false then false
  else if ¬ a.fUsesDistanceField = b.fUsesDistanceField then false
  else if ¬ a.fViewMatrix = b.fViewMatrix then false
  else if a.fUsesDistanceField = false ∧ a.usesLocalCoords = true ∧
      equalsWithinTolerance a.fTranslate0 b.fTranslate0 = false then false
  else true

/-- The combinability condition exactly as the specification words it:
same rendition mode, compatible pipeline state, equivalent transform —
where `exact equality for field mode is not required since field quads
carry their own placement`, and bitmap mode compares the stored
(integer-translation-stripped) transforms. -/
def specCombinable (a b : SmallPathOpState) : Bool :=
  helperIsCompatible a b &&
  decide (a.fUsesDistanceField = b.fUsesDistanceField) &&
  (if a.fUsesDistanceField then true
   else decide (a.fViewMatrix = b.fViewMatrix))

/-- Counterexample to C3 as stated: two field-mode ops with identical
pipeline state but different view matrices are combinable per the
specification (field mode needs no transform equality), yet the code
refuses to combine them: `onCombineIfPossible` requires `cheapEqualTo`
view matrices in field mode too. -/
theorem c3_counterexample :
    specCombinable
      ⟨0, true, true, ⟨1, 0, 0, 0, 1, 0⟩, (0, 0)⟩
      ⟨0, true, true, ⟨2, 0, 0, 0, 2, 0⟩, (0, 0)⟩ = true ∧
    onCombineIfPossible
      ⟨0, true, true, ⟨1, 0, 0, 0, 1, 0⟩, (0, 0)⟩
      ⟨0, true, true, ⟨2, 0, 0, 0, 2, 0⟩, (0, 0)⟩ = false := by
  constructor
  · norm_num [specCombinable, helperIsCompatible]
  · norm_num [onCombineIfPossible, helperIsCompatible]

/-- C3 (amended): two ops are combinable iff they share pipeline state,
resolve to the same rendition mode, their stored view matrices are
(cheaply) equal — required in field mode as well, since the code does
not yet reposition field quads on the CPU — and, in bitmap mode with
local coordinates in use, their stripped integer translations agree
within tolerance. -/
theorem c3_onCombineIfPossible_iff (a b : SmallPathOpState) :
    onCombineIfPossible a b = true ↔
    (helperIsCompatible a b = true ∧
     a.fUsesDistanceField = b.fUsesDistanceField ∧
     a.fViewMatrix = b.fViewMatrix ∧
     (a.fUsesDistanceField = false → a.usesLocalCoords = true →
       equalsWithinTolerance a.fTranslate0 b.fTranslate0 = true)) := by
  unfold onCombineIfPossible
  by_cases h1 : helperIsCompatible a b = false
  · rw [if_pos h1]
    constructor
    · intro h
      cases h
    · intro hc
      rw [hc.1] at h1
      cases h1
  · rw [if_neg h1]
    have h1t : helperIsCompatible a b = true := by
      cases hh : helperIsCompatible a b
      · exact absurd hh h1
      · rfl
    by_cases h2 : a.fUsesDistanceField = b.fUsesDistanceField
    · rw [if_neg (not_not.mpr h2)]
      by_cases h3 : a.fViewMatrix = b.fViewMatrix
      · rw [if_neg (not_not.mpr h3)]
        by_cases h4 : a.fUsesDistanceField = false ∧ a.usesLocalCoords = true ∧
            equalsWithinTolerance a.fTranslate0 b.fTranslate0 = false
        · rw [if_pos h4]
          constructor
          · intro h
            cases h
          · intro hc
            have hbad := h4.2.2
            rw [hc.2.2.2 h4.1 h4.2.1] at hbad
            cases hbad
        · rw [if_neg h4]
          simp only [true_iff]
          refine ⟨h1t, h2, h3, ?_⟩
          intro hdf hulc
          cases hewt : equalsWithinTolerance a.fTranslate0 b.fTranslate0
          · exact absurd ⟨hdf, hulc, hewt⟩ h4
          · rfl
      · rw [if_pos h3]
        constructor
        · intro h
          cases h
        · intro hc
          exact absurd hc.2.2.1 h3
    · rw [if_pos h2]
      constructor
      · intro h
        cases h
      · intro hc
        exact absurd hc.2.1 h2

/-- Witness for the amended C3 on a concrete combinable pair. -/
theorem c3_witness :
    onCombineIfPossible
      ⟨0, true, true, ⟨1, 0, 0, 0, 1, 0⟩, (0, 0)⟩
      ⟨0, true, true, ⟨1, 0, 0, 0, 1, 0⟩, (0, 0)⟩ = true :=
  (c3_onCombineIfPossible_iff _ _).mpr
    ⟨by norm_num [helperIsCompatible], rfl, rfl, fun h _ => by cases h⟩

/-- An `SkRect` with exact rational coordinates. -/
structure RectQ where
  fLeft : ℚ
  fTop : ℚ
  fRight : ℚ
  fBottom : ℚ
deriving DecidableEq, Repr

/-- Affine point mapping of a non-perspective `SkMatrix`. -/
def mapPoint (m : SkMatrixQ) (p : ℚ × ℚ) : ℚ × ℚ :=
  (m.scaleX * p.1 + m.skewX * p.2 + m.transX,
   m.skewY * p.1 + m.scaleY * p.2 + m.transY)

/-- `SkMatrix::mapRect` for a non-perspective matrix: the bounding box
of the four mapped corners. -/
def mapRect (m : SkMatrixQ) (r : RectQ) : RectQ :=
  let p1 := mapPoint m (r.fLeft, r.fTop)
  let p2 := mapPoint m (r.fRight, r.fTop)
  let p3 := mapPoint m (r.fLeft, r.fBottom)
  let p4 := mapPoint m (r.fRight, r.fBottom)
  ⟨min (min p1.1 p2.1) (min p3.1 p4.1),
   min (min p1.2 p2.2) (min p3.2 p4.2),
   max (max p1.1 p2.1) (max p3.1 p4.1),
   max (max p1.2 p2.2) (max p3.2 p4.2)⟩

/-- `SkScalarTruncToScalar`: truncation toward zero. -/
def skScalarTruncToScalar (x : ℚ) : ℚ :=
  if 0 ≤ x then (⌊x⌋ : ℚ) else (⌈x⌉ : ℚ)

/-- `SkScalarFraction(x) = x - SkScalarTruncToScalar(x)`. -/
def skScalarFraction (x : ℚ) : ℚ := x - skScalarTruncToScalar x

/-- The constructor split of `SmallPathOp::SmallPathOp`: in bitmap
(non-field) mode the integer (floor) part of the view translation is
moved into `fTranslate`, and only the fractional part stays in the
stored `fViewMatrix`. -/
def smallPathOpInit (usesDistanceField : Bool) (viewMatrix : SkMatrixQ) :
    (ℚ × ℚ) × SkMatrixQ :=
  if usesDistanceField then ((0, 0), viewMatrix)
  else
    let translateX := viewMatrix.transX
    let translateY := viewMatrix.transY
    let tx : ℚ := (⌊translateX⌋ : ℚ)
    let ty : ℚ := (⌊translateY⌋ : ℚ)
    ((tx, ty),
      { viewMatrix with transX := translateX - tx, transY := translateY - ty })

/-- The rasterization matrix of `SmallPathOp::addBMPathToAtlas` (before
its final `postTranslate`): the incoming `ctm` with each translation
component replaced by `SkScalarFraction` of itself — the sub-pixel
offset that gets burnt into the cached rendition. -/
def bmDrawMatrix (ctm : SkMatrixQ) : SkMatrixQ :=
  { ctm with transX := skScalarFraction ctm.transX,
             transY := skScalarFraction ctm.transY }

/-- The `shapeData->fBounds` computation of `addBMPathToAtlas`:
map the shape bounds through the fractional draw matrix, floor the
origin (`dx`, `dy`), round out, pad by `intPad = 1` on each side,
re-place at the origin, and offset the stored bounds back by
`(dx - intPad, dy - intPad)`. -/
def addBMFBounds (ctm : SkMatrixQ) (bounds : RectQ) : RectQ :=
  let drawMatrix := bmDrawMatrix ctm
  let shapeDevBounds := mapRect drawMatrix bounds
  let dx : ℚ := (⌊shapeDevBounds.fLeft⌋ : ℚ)
  let dy : ℚ := (⌊shapeDevBounds.fTop⌋ : ℚ)
  let devW : ℚ := (⌈shapeDevBounds.fRight⌉ : ℚ) - (⌊shapeDevBounds.fLeft⌋ : ℚ)
  let devH : ℚ := (⌈shapeDevBounds.fBottom⌉ : ℚ) - (⌊shapeDevBounds.fTop⌋ : ℚ)
  let intPad : ℚ := 1
  let width := devW + 2 * intPad
  let height := devH + 2 * intPad
  let translateX := intPad - dx
  let translateY := intPad - dy
  ⟨0 - translateX, 0 - translateY, width - translateX, height - translateY⟩

/-- The quad placement of `SmallPathOp::writePathVertices`:
`setRectFan(bounds.left + preTranslate.x, …)` — the stored rendition
bounds offset by the per-instance integer translation. -/
def writePathVerticesQuad (preTranslate : ℚ × ℚ) (b : RectQ) : RectQ :=
  ⟨b.fLeft + preTranslate.1, b.fTop + preTranslate.2,
   b.fRight + preTranslate.1, b.fBottom + preTranslate.2⟩

/-- The reading C9 asserts: the sub-pixel fractional position is baked
into vertex placement rather than into the cached rendition, i.e. the
rasterization matrix that produces the cached bitmap carries no
sub-pixel translation. -/
def subpixelExcludedFromRendition (ctm : SkMatrixQ) : Prop :=
  (bmDrawMatrix (smallPathOpInit false ctm).2).transX = 0 ∧
  (bmDrawMatrix (smallPathOpInit false ctm).2).transY = 0

/-- Counterexample to C9 as stated: for a bitmap-mode view matrix with
translation `x = 5/2`, the rasterization matrix of the cached rendition
carries the sub-pixel offset `1/2` — the fraction is baked into the
rendition, not into vertex placement (the quad corners are integers,
see the amended theorem). -/
theorem c9_counterexample :
    ¬ subpixelExcludedFromRendition ⟨1, 0, 5/2, 0, 1, 0⟩ := by
  unfold subpixelExcludedFromRendition smallPathOpInit bmDrawMatrix
    skScalarFraction skScalarTruncToScalar
  norm_num

/-- C9 (amended): for every bitmap-mode draw request, the integer
(floor) pixel-snapping translation is split out of the transform and is
what `writePathVertices` applies at vertex placement — the written quad
has integer corner coordinates — while the sub-pixel (fractional)
translation stays in the stored view matrix and in the rasterization
matrix, i.e. it is baked into the cached rendition rather than into
vertex placement. -/
theorem c9_bitmap_translation_split (ctm : SkMatrixQ) (bounds : RectQ) :
    (smallPathOpInit false ctm).1
      = ((⌊ctm.transX⌋ : ℚ), (⌊ctm.transY⌋ : ℚ)) ∧
    (smallPathOpInit false ctm).2.transX
      = ctm.transX - (⌊ctm.transX⌋ : ℚ) ∧
    (smallPathOpInit false ctm).2.transY
      = ctm.transY - (⌊ctm.transY⌋ : ℚ) ∧
    (bmDrawMatrix (smallPathOpInit false ctm).2).transX
      = ctm.transX - (⌊ctm.transX⌋ : ℚ) ∧
    (bmDrawMatrix (smallPathOpInit false ctm).2).transY
      = ctm.transY - (⌊ctm.transY⌋ : ℚ) ∧
    (∃ a b c d : ℤ,
      writePathVerticesQuad (smallPathOpInit false ctm).1
        (addBMFBounds (smallPathOpInit false ctm).2 bounds)
        = ⟨(a : ℚ), (b : ℚ), (c : ℚ), (d : ℚ)⟩) := by
  have hfrac : ∀ x : ℚ, skScalarFraction (x - (⌊x⌋ : ℚ)) = x - (⌊x⌋ : ℚ) := by
    intro x
    unfold skScalarFraction skScalarTruncToScalar
    have h0 : (0 : ℚ) ≤ x - (⌊x⌋ : ℚ) := by
      have := Int.floor_le x
      linarith
    rw [if_pos h0]
    have h1 : ⌊x - (⌊x⌋ : ℚ)⌋ = 0 := by
      rw [Int.floor_sub_int]
      omega
    rw [h1]
    norm_num
  have hinit1 : (smallPathOpInit false ctm).1
      = ((⌊ctm.transX⌋ : ℚ), (⌊ctm.transY⌋ : ℚ)) := by
    simp [smallPathOpInit]
  have hinitX : (smallPathOpInit false ctm).2.transX
      = ctm.transX - (⌊ctm.transX⌋ : ℚ) := by
    simp [smallPathOpInit]
  have hinitY : (smallPathOpInit false ctm).2.transY
      = ctm.transY - (⌊ctm.transY⌋ : ℚ) := by
    simp [smallPathOpInit]
  have hbmX : (bmDrawMatrix (smallPathOpInit false ctm).2).transX
      = ctm.transX - (⌊ctm.transX⌋ : ℚ) := by
    unfold bmDrawMatrix
    rw [hinitX]
    exact hfrac ctm.transX
  have hbmY : (bmDrawMatrix (smallPathOpInit false ctm).2).transY
      = ctm.transY - (⌊ctm.transY⌋ : ℚ) := by
    unfold bmDrawMatrix
    rw [hinitY]
    exact hfrac ctm.transY
  refine ⟨hinit1, hinitX, hinitY, hbmX, hbmY, ?_⟩
  set sdb := mapRect (bmDrawMatrix (smallPathOpInit false ctm).2) bounds
    with hsdb
  refine ⟨⌊sdb.fLeft⌋ - 1 + ⌊ctm.transX⌋, ⌊sdb.fTop⌋ - 1 + ⌊ctm.transY⌋,
    ⌈sdb.fRight⌉ + 1 + ⌊ctm.transX⌋, ⌈sdb.fBottom⌉ + 1 + ⌊ctm.transY⌋, ?_⟩
  rw [hinit1]
  simp only [writePathVerticesQuad, addBMFBounds, ← hsdb, RectQ.mk.injEq]
  refine ⟨?_, ?_, ?_, ?_⟩ <;> push_cast <;> ring

/-- Witness for the amended C9 at translation `x = 5/2`: the integer
part `2` is split into the vertex translation. -/
theorem c9_witness :
    (smallPathOpInit false ⟨1, 0, 5/2, 0, 1, 0⟩).1 = ((2 : ℚ), (0 : ℚ)) := by
  have h := (c9_bitmap_translation_split ⟨1, 0, 5/2, 0, 1, 0⟩
    ⟨0, 0, 1, 1⟩).1
  rw [h]
  norm_num
